import Mathlib

set_option maxHeartbeats 1000000
set_option maxRecDepth 100000

/-! Shallow embedding of the rfa news-archive crawler and reader
    (src/lib.rs, src/bin/spider.rs, src/bin/web.rs).

    Rust strings are modelled as `List Char`; stored keys and byte strings
    as `List Nat` whose elements are byte values. The jiff timestamp parse
    of a display date is abstracted as an `Option Int` (the parsed epoch
    seconds, `none` when the string is absent or unparseable); everything
    else is translated directly from the source. -/

/-- ASCII lowercasing of one character. Models Rust `to_lowercase` for the
ASCII-only site names that `site_code` compares against (Unicode special
casings such as the Kelvin sign are outside the model). -/
def lowerChar (c : Char) : Char :=
  if 'A' ≤ c ∧ c ≤ 'Z' then Char.ofNat (c.toNat + 32) else c

/-- src/lib.rs `site_code`: closed table of ten known sites, unknown site
maps to the sentinel code 99. -/
def site_code (website : List Char) : Nat :=
  let s := website.map lowerChar
  if s = "english".toList then 0
  else if s = "mandarin".toList then 1
  else if s = "cantonese".toList then 2
  else if s = "burmese".toList then 3
  else if s = "korean".toList then 4
  else if s = "lao".toList then 5
  else if s = "khmer".toList then 6
  else if s = "tibetan".toList then 7
  else if s = "uyghur".toList then 8
  else if s = "vietnamese".toList then 9
  else 99

/-- Rust `str::trim_matches(sep)`: remove every leading and trailing
occurrence of `sep`. -/
def trimMatches (sep : Char) (l : List Char) : List Char :=
  ((l.dropWhile (fun c => c == sep)).reverse.dropWhile (fun c => c == sep)).reverse

/-- Rust `str::split_once(sep)`: the pieces before and after the first
occurrence of `sep`, or `none` when `sep` does not occur. -/
def split_once (sep : Char) : List Char → Option (List Char × List Char)
  | [] => none
  | c :: cs =>
    if c = sep then some ([], cs)
    else
      match split_once sep cs with
      | none => none
      | some (a, b) => some (c :: a, b)

/-- UTF-8 encoding of one character (same encoding Rust `str::as_bytes`
exposes; Lean `Char` and Rust `char` both exclude surrogates). -/
def utf8EncodeChar (c : Char) : List Nat :=
  let n := c.toNat
  if n < 0x80 then [n]
  else if n < 0x800 then [0xC0 + n / 64, 0x80 + n % 64]
  else if n < 0x10000 then
    [0xE0 + n / 4096, 0x80 + n / 64 % 64, 0x80 + n % 64]
  else
    [0xF0 + n / 262144, 0x80 + n / 4096 % 64, 0x80 + n / 64 % 64, 0x80 + n % 64]

/-- UTF-8 bytes of a string, as Rust `str::as_bytes`. -/
def utf8Bytes (l : List Char) : List Nat :=
  (l.map utf8EncodeChar).flatten

/-- Two's-complement value of an `i64`, i.e. the `u64` with the same bytes:
models the byte content of Rust `i64::to_be_bytes`. -/
def toTwos64 (s : Int) : Nat :=
  (s % (2 ^ 64 : Int)).toNat

/-- Big-endian base-256 digits of `n`, `k` bytes wide (for `n < 256 ^ k`):
models Rust `to_be_bytes` applied to the two's-complement value. -/
def beBytes : Nat → Nat → List Nat
  | 0, _ => []
  | k + 1, n => n / 256 ^ k :: beBytes k (n % 256 ^ k)

/-- src/lib.rs `index_key`: split the slash-trimmed canonical URL as
`site/rest`, emit `[site_code (1 byte)] ++ [epoch seconds, 8 bytes
big-endian] ++ [UTF-8 bytes of rest]`. The two source `unwrap`s (missing
'/' separator, unparseable display date) are modelled by `none`. -/
def index_key (website_url : List Char) (parsed_ts : Option Int) : Option (List Nat) :=
  match split_once '/' (trimMatches '/' website_url), parsed_ts with
  | some (website, rest), some ts =>
    some (site_code website :: beBytes 8 (toTwos64 ts) ++ utf8Bytes rest)
  | _, _ => none

/-- Rust `str::split(sep)` on a single character: the list of pieces
(always nonempty; splitting the empty string yields one empty piece). -/
def splitChar (sep : Char) : List Char → List (List Char)
  | [] => [[]]
  | c :: cs =>
    if c = sep then [] :: splitChar sep cs
    else
      match splitChar sep cs with
      | [] => [[c]]
      | s :: ss => (c :: s) :: ss

/-- src/lib.rs `get_filename_from_url`:
`url.split('/').next_back().and_then(|s| s.split('?').next())`, i.e. the
piece after the last '/', truncated at its first '?'. -/
def get_filename_from_url (url : List Char) : List Char :=
  ((splitChar '/' url).getLastD []).takeWhile (fun c => c != '?')

/-- The specification's description of filename extraction, for comparison:
"the final path segment with any query string stripped" — strip everything
from the first '?' (the query string), then take the final '/'-separated
segment. -/
def filename_from_url_spec (url : List Char) : List Char :=
  (splitChar '/' (url.takeWhile (fun c => c != '?'))).getLastD []

/-! ## The crawler (src/bin/spider.rs) and reader (src/bin/web.rs)

The JSON shape of one source article is abstracted into `Element`:
`website_url` models `json["websites"][site]["website_url"].as_str()`
(`none` when the field is absent, which the source `unwrap`s),
`display_ts` models `json["display_date"].as_str()` followed by the jiff
timestamp parse (`none` when the field is absent or unparseable, both of
which the source `unwrap`s), and `imgs` models the promotional and inline
image URLs that `extract` collects from the element. A fetched page is a
reported total `count` plus its `content_elements`. The network call
`req_story_archive` (plus the `json["count"].as_u64().unwrap()` read) is
abstracted as `fetch : Nat → Option Page`, indexed by the request offset;
`none` covers both a transport error and a malformed response. Image
downloads touch only the filesystem, never the key-value store, and are
therefore not part of the store model. -/

structure Element where
  website_url : Option (List Char)
  display_ts : Option Int
  imgs : List (List Char)
deriving DecidableEq

structure Page where
  count : Nat
  elements : List Element
deriving DecidableEq

/-- The three partitions the spider writes: `db` ("rfa", the primary
records, keyed by the UTF-8 bytes of the trimmed canonical URL, most
recent insert first), `index` (the key-only secondary index), and `done`
(the completion markers). -/
structure Store where
  db : List (List Nat × Element)
  index : List (List Nat)
  done : List (List Char)
deriving DecidableEq

/-- spider.rs `extract`: the page's elements together with all image URLs
collected from them, in element order. -/
def extract (page : Page) : List Element × List (List Char) :=
  (page.elements, (page.elements.map (fun e => e.imgs)).flatten)

/-- spider.rs `fetch_articles` line 141: `format!("{site}-{year}-{month}")`. -/
def doneKey (site : List Char) (year : Int) (month : Nat) : List Char :=
  site ++ '-' :: (toString year).toList ++ '-' :: (toString month).toList

/-- The pagination loop of `fetch_articles` (lines 164-171):
`while count > items.len() { fetch at offset = items.len(); extract;
extend }`. `offs` records every offset fetched so far (the caller seeds it
with the initial offset 0). The source loop has no termination guarantee
of its own (the spec flags this); `fuel` bounds the modelled recursion,
and exhausting it yields `none` like any other abort — in either case
nothing has been written to the store. -/
def crawlLoop (fetch : Nat → Option Page) (count : Nat) :
    Nat → List Element → List (List Char) → List Nat →
    Option (List Element × List (List Char) × List Nat)
  | fuel, items, imgs, offs =>
    if count ≤ items.length then some (items, imgs, offs)
    else
      match fuel with
      | 0 => none
      | fuel + 1 =>
        match fetch items.length with
        | none => none
        | some page =>
          crawlLoop fetch count fuel (items ++ (extract page).1)
            (imgs ++ (extract page).2) (offs ++ [items.length])

/-- The batch-building loop of `fetch_articles` (lines 191-205): for every
item, insert the record into the primary partition keyed by its trimmed
`website_url`, and insert the corresponding `index_key` into the index
partition; any of the source's `unwrap`s failing (missing `website_url`,
missing or unparseable `display_date`, no '/' in the trimmed URL) panics
before the commit, modelled by `none`. Returns the primary inserts and
the index inserts of the batch. -/
def buildBatch : List Element → Option (List (List Nat × Element) × List (List Nat))
  | [] => some ([], [])
  | e :: rest =>
    match e.website_url with
    | none => none
    | some url =>
      let pk := trimMatches '/' url
      match index_key pk e.display_ts with
      | none => none
      | some ik =>
        match buildBatch rest with
        | none => none
        | some (dbs, iks) => some ((utf8Bytes pk, e) :: dbs, ik :: iks)

/-- Applying the primary inserts of a committed batch: each insert prepends
its entry (lookups see the most recent insert first). -/
def applyDb (batch : List (List Nat × Element)) (db : List (List Nat × Element)) :
    List (List Nat × Element) :=
  batch.foldl (fun d p => p :: d) db

/-- Applying the index inserts of a committed batch. -/
def applyIndex (iks : List (List Nat)) (idx : List (List Nat)) : List (List Nat) :=
  iks.foldl (fun d k => k :: d) idx

/-- spider.rs `fetch_articles` — one `ingest_unit(site, year, month)` run.
`fetch` abstracts `req_story_archive` for this unit's fixed site and date
range; `commitOk` abstracts the outcome of `batch.commit()` (line 206),
whose failure panics via `unwrap` before any store key becomes visible
(the batch is all-or-nothing) and before the marker write of line 208.
`none` models every aborted run: no store mutation has happened, because
all mutations (the atomic commit, the marker insert) occur at the very end
of the control paths below. -/
def fetch_articles (st : Store) (site : List Char) (year : Int) (month : Nat)
    (fetch : Nat → Option Page) (fuel : Nat) (commitOk : Bool) : Option Store :=
  if doneKey site year month ∈ st.done then some st
  else
    match fetch 0 with
    | none => none
    | some page =>
      if page.count = 0 then
        if year < 2024 then
          some { st with done := doneKey site year month :: st.done }
        else some st
      else
        match crawlLoop fetch page.count fuel (extract page).1
            (extract page).2 [0] with
        | none => none
        | some (items, _, _) =>
          match buildBatch items with
          | none => none
          | some (dbs, iks) =>
            if commitOk then
              some { st with
                       db := applyDb dbs st.db,
                       index := applyIndex iks st.index,
                       done := doneKey site year month :: st.done }
            else none

/-- Point lookup in the primary partition (`db.get(key)`): the most
recently inserted value for the key, if any. -/
def dbGet (db : List (List Nat × Element)) (k : List Nat) : Option Element :=
  match db with
  | [] => none
  | (k', v) :: rest => if k' = k then some v else dbGet rest k

/-- web.rs `site` handler (lines 202-239), the `list(site, page)` read
path. `indexAsc` is the index partition's key set in ascending
lexicographic byte order, which is how the storage engine's
`index.prefix([code])` iterator delivers it; `.rev()` then walks it
descending. The handler enumerates the reversed prefix scan, skips the
first `page * 20` entries, stops after `page * 20 + 20`, and resolves each
windowed key through the primary partition at
`format!("{site}/{rest}")` where `rest` is the key's bytes after the fixed
9-byte prefix (`String::from_utf8_lossy` is the identity on the valid
UTF-8 suffixes that `index_key` writes); keys whose primary record is
missing are skipped. -/
def site_page (indexAsc : List (List Nat)) (db : List (List Nat × Element))
    (siteName : List Char) (page : Nat) : List Element :=
  let code := site_code siteName
  let scanned := (indexAsc.filter (fun k => k.take 1 == [code])).reverse
  let window := (scanned.drop (page * 20)).take 20
  window.filterMap (fun k => dbGet db (utf8Bytes siteName ++ 47 :: k.drop 9))

/-- The write-path invariant tying the secondary index to the primary
partition: every index key carries a site code and a path suffix, and the
primary partition holds a record whose canonical path is that site segment
joined with that suffix. -/
def storeInv (st : Store) : Prop :=
  ∀ ik ∈ st.index, ∃ pk e, (pk, e) ∈ st.db ∧
    ∃ site rest, pk = utf8Bytes site ++ 47 :: utf8Bytes rest ∧
      ik.drop 9 = utf8Bytes rest ∧ ik.headD 0 = site_code site

/-! ## Concrete fixtures used by witnesses and scenario theorems -/

def emptyStore : Store := { db := [], index := [], done := [] }

/-- A source that reports zero matches. -/
def zeroFetch : Nat → Option Page := fun _ => some { count := 0, elements := [] }

/-- One concrete well-formed article element. -/
def elemA : Element :=
  { website_url := some "english/a".toList, display_ts := some 0, imgs := [] }

/-- A source that reports exactly one article. -/
def oneFetch : Nat → Option Page := fun _ => some { count := 1, elements := [elemA] }

/-- A store that already carries the completion marker for
(english, 2000, 1). -/
def doneStore : Store :=
  { db := [], index := [], done := [doneKey "english".toList 2000 1] }

/-- A featureless article element (pagination counting only). -/
def dummyElem : Element := { website_url := none, display_ts := none, imgs := [] }

/-- The fake source of the pagination scenario: reports `count = 250` and
serves pages of up to 100 records. -/
def fetch250 : Nat → Option Page := fun off =>
  some { count := 250, elements := List.replicate (min 100 (250 - off)) dummyElem }

/-- Element number `i` of the 45-entry site-listing scenario. -/
def c7Elem (i : Nat) : Element :=
  { website_url := none, display_ts := some (Int.ofNat i), imgs := [] }

/-- Forty-five index keys for the english site (code 0), in ascending
timestamp (and hence ascending lexicographic) order; entry `i` has path
suffix the single byte `65 + i`. -/
def c7Keys : List (List Nat) :=
  (List.range 45).map (fun i => 0 :: beBytes 8 (1000 + i) ++ [65 + i])

/-- The matching primary partition: one record per index entry. -/
def c7Db : List (List Nat × Element) :=
  (List.range 45).map (fun i => (utf8Bytes "english/".toList ++ [65 + i], c7Elem i))

/-- The same primary partition with the record of the newest entry
(number 44) missing. -/
def c7DbMissing : List (List Nat × Element) :=
  (List.range 44).map (fun i => (utf8Bytes "english/".toList ++ [65 + i], c7Elem i))

/-! ## Helper lemmas -/

theorem beBytes_length (k n : Nat) : (beBytes k n).length = k := by
  induction k generalizing n with
  | zero => rfl
  | succ k ih => simp [beBytes, ih]

theorem beBytes_lt {k n₁ n₂ : Nat} (h : n₁ < n₂) (h2 : n₂ < 256 ^ k) :
    List.Lex (· < ·) (beBytes k n₁) (beBytes k n₂) := by
  induction k generalizing n₁ n₂ with
  | zero => simp [pow_zero] at h2; omega
  | succ k ih =>
    have hle : n₁ / 256 ^ k ≤ n₂ / 256 ^ k := Nat.div_le_div_right (Nat.le_of_lt h)
    simp only [beBytes]
    rcases Nat.lt_or_ge (n₁ / 256 ^ k) (n₂ / 256 ^ k) with hlt | hge
    · exact List.Lex.rel hlt
    · have heq : n₁ / 256 ^ k = n₂ / 256 ^ k := Nat.le_antisymm hle hge
      have e₁ := Nat.div_add_mod n₁ (256 ^ k)
      have e₂ := Nat.div_add_mod n₂ (256 ^ k)
      have hpos : 0 < 256 ^ k := Nat.pos_pow_of_pos k (by norm_num)
      have hmod : n₁ % 256 ^ k < n₂ % 256 ^ k := by
        rw [heq] at e₁; omega
      rw [heq]
      exact List.Lex.cons (ih hmod (Nat.mod_lt _ hpos))

theorem lex_append {α : Type} {r : α → α → Prop} {l₁ l₂ : List α} (r₁ r₂ : List α)
    (h : List.Lex r l₁ l₂) :
    l₁.length = l₂.length → List.Lex r (l₁ ++ r₁) (l₂ ++ r₂) := by
  induction h with
  | nil => intro hlen; simp at hlen
  | rel hr => intro _; exact List.Lex.rel hr
  | cons _ ih => intro hlen; exact List.Lex.cons (ih (by simpa using hlen))

theorem split_once_eq_append {sep : Char} {l a b : List Char}
    (h : split_once sep l = some (a, b)) : l = a ++ sep :: b := by
  induction l generalizing a b with
  | nil => simp [split_once] at h
  | cons c cs ih =>
    rw [split_once] at h
    split at h
    · next hc =>
      injection h with h'
      injection h' with h₁ h₂
      subst hc; subst h₁; subst h₂; rfl
    · next hc =>
      split at h
      · exact absurd h (by simp)
      · next a' b' heq =>
        injection h with h'
        injection h' with h₁ h₂
        subst h₁; subst h₂
        simpa using ih heq

theorem dropWhile_head_false {α : Type} {p : α → Bool} {l : List α} {c : α} {t : List α}
    (h : l.dropWhile p = c :: t) : p c = false := by
  induction l with
  | nil => simp [List.dropWhile] at h
  | cons d ds ih =>
    rw [List.dropWhile_cons] at h
    split at h
    · exact ih h
    · next hp =>
      injection h with h₁ _
      subst h₁
      exact eq_false_of_ne_true hp

theorem dropWhile_exists_eq {α : Type} {p : α → Bool} (l : List α) :
    ∃ u, u ++ l.dropWhile p = l := by
  induction l with
  | nil => exact ⟨[], rfl⟩
  | cons c cs ih =>
    by_cases hp : p c
    · obtain ⟨u, hu⟩ := ih
      exact ⟨c :: u, by simp [List.dropWhile_cons, hp, hu]⟩
    · exact ⟨[], by simp [List.dropWhile_cons, hp]⟩

theorem dropWhile_dropWhile {α : Type} {p : α → Bool} (l : List α) :
    (l.dropWhile p).dropWhile p = l.dropWhile p := by
  cases h : l.dropWhile p with
  | nil => rfl
  | cons c t =>
    have hc := dropWhile_head_false h
    simp [List.dropWhile_cons, hc]

theorem trim_head_false {sep : Char} {l : List Char} {c : Char} {t' : List Char}
    (h : trimMatches sep l = c :: t') : (c == sep) = false := by
  obtain ⟨u, hu⟩ :=
    dropWhile_exists_eq (p := fun c => c == sep)
      ((l.dropWhile (fun c => c == sep)).reverse)
  have h3 := congrArg List.reverse hu
  rw [List.reverse_append, List.reverse_reverse] at h3
  unfold trimMatches at h
  rw [h] at h3
  have h5 : l.dropWhile (fun c => c == sep) = c :: (t' ++ u.reverse) := by
    rw [← h3]; simp
  exact dropWhile_head_false (p := fun c => c == sep) h5

theorem trimMatches_idem (sep : Char) (l : List Char) :
    trimMatches sep (trimMatches sep l) = trimMatches sep l := by
  cases ht : trimMatches sep l with
  | nil => rfl
  | cons c t' =>
    have hc := trim_head_false ht
    have hA : (c :: t').dropWhile (fun c => c == sep) = c :: t' := by
      simp [List.dropWhile_cons, hc]
    unfold trimMatches
    rw [hA]
    have h4 : (c :: t').reverse
        = ((l.dropWhile (fun c => c == sep)).reverse).dropWhile (fun c => c == sep) := by
      rw [← ht]
      unfold trimMatches
      rw [List.reverse_reverse]
    rw [h4, dropWhile_dropWhile, ← h4, List.reverse_reverse]

theorem mem_foldl_cons {α : Type} {x : α} (l acc : List α) :
    x ∈ l.foldl (fun d p => p :: d) acc ↔ x ∈ l ∨ x ∈ acc := by
  induction l generalizing acc with
  | nil => simp
  | cons c cs ih =>
    rw [List.foldl_cons, ih (c :: acc)]
    simp [List.mem_cons]
    tauto

theorem utf8Bytes_append (a b : List Char) :
    utf8Bytes (a ++ b) = utf8Bytes a ++ utf8Bytes b := by
  simp [utf8Bytes]

theorem utf8Bytes_cons (c : Char) (l : List Char) :
    utf8Bytes (c :: l) = utf8EncodeChar c ++ utf8Bytes l := by
  simp [utf8Bytes]

theorem index_key_eq_some {u site rest : List Char} {ts : Int}
    (h : split_once '/' (trimMatches '/' u) = some (site, rest)) :
    index_key u (some ts)
      = some (site_code site :: beBytes 8 (toTwos64 ts) ++ utf8Bytes rest) := by
  unfold index_key
  rw [h]

theorem drop9_key (code : Nat) (ts : Nat) (rest : List Nat) :
    (code :: beBytes 8 ts ++ rest).drop 9 = rest := by
  have h : code :: beBytes 8 ts ++ rest = (code :: beBytes 8 ts) ++ rest := by simp
  rw [h]
  have hlen : (code :: beBytes 8 ts).length = 9 := by simp [beBytes_length]
  rw [← hlen, List.drop_left]

theorem buildBatch_sound {items : List Element} :
    ∀ {dbs : List (List Nat × Element)} {iks : List (List Nat)},
      buildBatch items = some (dbs, iks) →
      ∀ ik ∈ iks, ∃ pk e, (pk, e) ∈ dbs ∧
        ∃ site rest, pk = utf8Bytes site ++ 47 :: utf8Bytes rest ∧
          ik.drop 9 = utf8Bytes rest ∧ ik.headD 0 = site_code site := by
  induction items with
  | nil =>
    intro dbs iks h ik hik
    rw [buildBatch] at h
    injection h with h'
    injection h' with h₁ h₂
    subst h₂
    simp at hik
  | cons e rest ih =>
    intro dbs iks h ik hik
    rw [buildBatch] at h
    cases hurl : e.website_url with
    | none => rw [hurl] at h; exact absurd h (by simp)
    | some url =>
      rw [hurl] at h
      simp only at h
      cases hik' : index_key (trimMatches '/' url) e.display_ts with
      | none => rw [hik'] at h; exact absurd h (by simp)
      | some ikey =>
        rw [hik'] at h
        cases hbb : buildBatch rest with
        | none => rw [hbb] at h; exact absurd h (by simp)
        | some p =>
          obtain ⟨dbs', iks'⟩ := p
          rw [hbb] at h
          simp only at h
          injection h with h'
          injection h' with h₁ h₂
          subst h₁; subst h₂
          rcases List.mem_cons.mp hik with hik | hik
          · -- ik is the index key of this item
            subst hik
            -- index_key succeeded, so display_ts = some ts and the split succeeded
            cases hts : e.display_ts with
            | none => rw [hts] at hik'; simp [index_key] at hik'
            | some ts =>
              rw [hts] at hik'
              unfold index_key at hik'
              cases hsp : split_once '/' (trimMatches '/' (trimMatches '/' url)) with
              | none => rw [hsp] at hik'; simp at hik'
              | some sr =>
                obtain ⟨site, r⟩ := sr
                rw [hsp] at hik'
                simp only at hik'
                injection hik' with hik'
                rw [trimMatches_idem] at hsp
                have hpk := split_once_eq_append hsp
                refine ⟨utf8Bytes (trimMatches '/' url), e, List.mem_cons_self _ _,
                  site, r, ?_, ?_, ?_⟩
                · rw [hpk, utf8Bytes_append, utf8Bytes_cons]
                  have h47 : utf8EncodeChar '/' = [47] := by decide
                  rw [h47]
                  rfl
                · rw [← hik', drop9_key]
                · rw [← hik']
                  rfl
          · -- ik belongs to the tail of the batch
            obtain ⟨pk, e', hmem, hrel⟩ := ih hbb ik hik
            exact ⟨pk, e', List.mem_cons_of_mem _ hmem, hrel⟩

theorem crawlLoop_count_le {fetch : Nat → Option Page} {count : Nat} :
    ∀ {fuel : Nat} {items : List Element} {imgs : List (List Char)} {offs : List Nat}
      {res : List Element × List (List Char) × List Nat},
      crawlLoop fetch count fuel items imgs offs = some res → count ≤ res.1.length := by
  intro fuel
  induction fuel with
  | zero =>
    intro items imgs offs res h
    rw [crawlLoop] at h
    split at h
    · next hle => injection h with h'; subst h'; exact hle
    · exact absurd h (by simp)
  | succ f ih =>
    intro items imgs offs res h
    rw [crawlLoop] at h
    split at h
    · next hle => injection h with h'; subst h'; exact hle
    · cases hf : fetch items.length with
      | none => rw [hf] at h; exact absurd h (by simp)
      | some page => rw [hf] at h; exact ih h

/-! ### splitChar lemmas (for the filename claims) -/

theorem splitChar_cons (sep c : Char) (cs : List Char) :
    splitChar sep (c :: cs) =
      if c = sep then [] :: splitChar sep cs
      else
        match splitChar sep cs with
        | [] => [[c]]
        | s :: ss => (c :: s) :: ss := rfl

theorem splitChar_ne_nil (sep : Char) (l : List Char) : splitChar sep l ≠ [] := by
  induction l with
  | nil => simp [splitChar]
  | cons c cs ih =>
    rw [splitChar]
    split
    · simp
    · cases h : splitChar sep cs with
      | nil => exact absurd h ih
      | cons s ss => simp

theorem splitChar_of_not_mem {sep : Char} {l : List Char} (h : sep ∉ l) :
    splitChar sep l = [l] := by
  induction l with
  | nil => rfl
  | cons c cs ih =>
    have hc : ¬ c = sep := fun he => h (he ▸ List.mem_cons_self c cs)
    have hcs : sep ∉ cs := fun hm => h (List.mem_cons_of_mem _ hm)
    rw [splitChar, if_neg hc, ih hcs]

theorem splitChar_two_le_iff {sep : Char} {l : List Char} :
    sep ∈ l ↔ 2 ≤ (splitChar sep l).length := by
  induction l with
  | nil => simp [splitChar]
  | cons c cs ih =>
    rw [splitChar]
    by_cases hc : c = sep
    · rw [if_pos hc]
      subst hc
      have := splitChar_ne_nil c cs
      constructor
      · intro _
        cases h : splitChar c cs with
        | nil => exact absurd h this
        | cons s ss => simp
      · intro _; exact List.mem_cons_self c cs
    · rw [if_neg hc]
      cases h : splitChar sep cs with
      | nil => exact absurd h (splitChar_ne_nil sep cs)
      | cons s ss =>
        rw [h] at ih
        simp only [List.length_cons] at ih ⊢
        constructor
        · intro hm
          rcases List.mem_cons.mp hm with he | hm'
          · exact absurd he.symm hc
          · exact ih.mp hm'
        · intro hlen
          exact List.mem_cons_of_mem _ (ih.mpr hlen)

theorem getLastD_of_ne_nil {α : Type} {l : List α} (h : l ≠ []) (d₁ d₂ : α) :
    l.getLastD d₁ = l.getLastD d₂ := by
  cases l with
  | nil => exact absurd rfl h
  | cons a l => rw [List.getLastD_cons, List.getLastD_cons]

theorem mem_of_mem_takeWhile {α : Type} {p : α → Bool} {l : List α} {x : α}
    (h : x ∈ l.takeWhile p) : x ∈ l := by
  induction l with
  | nil => simp [List.takeWhile] at h
  | cons c cs ih =>
    rw [List.takeWhile_cons] at h
    split at h
    · rcases List.mem_cons.mp h with he | hm
      · exact he ▸ List.mem_cons_self c cs
      · exact List.mem_cons_of_mem _ (ih hm)
    · simp at h

/-- When no '/' occurs at or after the first '?', taking the last
'/'-separated piece and then truncating at '?' (what the code does)
agrees with stripping the query first and then taking the last path
segment (what the spec describes). -/
theorem filename_agree {url : List Char}
    (h : ('/' : Char) ∉ url.dropWhile (fun c => c != '?')) :
    get_filename_from_url url = filename_from_url_spec url := by
  induction url with
  | nil => rfl
  | cons c cs ih =>
    unfold get_filename_from_url filename_from_url_spec at ih ⊢
    by_cases hq : c = '?'
    · -- the whole remainder is the query: both sides are empty
      subst hq
      have hnm : ('/' : Char) ∉ '?' :: cs := by simpa using h
      rw [splitChar_of_not_mem hnm]
      simp [List.takeWhile_cons, splitChar]
    · have hpc : (c != '?') = true := by simpa using hq
      rw [List.dropWhile_cons] at h
      rw [if_pos hpc] at h
      by_cases hs : c = '/'
      · -- leading '/': both sides drop the empty first piece
        subst hs
        rw [splitChar_cons, if_pos rfl]
        rw [List.takeWhile_cons, if_pos hpc]
        rw [splitChar_cons, if_pos rfl]
        rw [List.getLastD_cons, List.getLastD_cons]
        exact ih h
      · -- ordinary character: it is prepended to the first piece on both sides
        rw [splitChar_cons, if_neg hs]
        rw [List.takeWhile_cons, if_pos hpc]
        rw [splitChar_cons, if_neg hs]
        cases hsc : splitChar '/' cs with
        | nil => exact absurd hsc (splitChar_ne_nil '/' cs)
        | cons s ss =>
          cases htt : splitChar '/' (cs.takeWhile (fun c => c != '?')) with
          | nil => exact absurd htt (splitChar_ne_nil '/' _)
          | cons t tt =>
            rw [hsc, htt] at ih
            simp only
            by_cases hss : ss = []
            · -- no '/' in cs at all
              subst hss
              have hcs : ('/' : Char) ∉ cs := by
                intro hm
                have := splitChar_two_le_iff.mp hm
                rw [hsc] at this
                simp at this
              have hse : s = cs := by
                have := splitChar_of_not_mem hcs
                rw [hsc] at this
                injection this with h₁ _
              have hct : ('/' : Char) ∉ cs.takeWhile (fun c => c != '?') :=
                fun hm => hcs (mem_of_mem_takeWhile hm)
              have htt' := splitChar_of_not_mem hct
              rw [htt] at htt'
              injection htt' with h₁ h₂
              subst h₁; subst h₂
              subst hse
              simp [List.takeWhile_cons, hpc]
            · -- '/' occurs in cs, hence (by h) inside the pre-'?' part
              have hmem : ('/' : Char) ∈ cs := by
                rw [splitChar_two_le_iff, hsc]
                simp only [List.length_cons]
                have := List.length_pos.mpr hss
                omega
              have hmemt : ('/' : Char) ∈ cs.takeWhile (fun c => c != '?') := by
                have := List.takeWhile_append_dropWhile (p := fun c => c != '?') (l := cs)
                rcases List.mem_append.mp (this ▸ hmem) with hm | hm
                · exact hm
                · exact absurd hm h
              have htt_ne : tt ≠ [] := by
                intro he
                have h2 := splitChar_two_le_iff.mp hmemt
                rw [htt, he] at h2
                simp at h2
              have hL : ((c :: s) :: ss).getLastD [] = (s :: ss).getLastD [] := by
                rw [List.getLastD_cons, List.getLastD_cons]
                exact getLastD_of_ne_nil hss _ _
              have hR : ((c :: t) :: tt).getLastD [] = (t :: tt).getLastD [] := by
                rw [List.getLastD_cons, List.getLastD_cons]
                exact getLastD_of_ne_nil htt_ne _ _
              rw [hL, hR]
              exact ih h

/-- Shape of every successful `fetch_articles` run: either the unit's
completion marker is in the final state, or the run was the
zero-count-in-a-recent-year path, which leaves the store untouched. -/
theorem fetch_articles_shape {st : Store} {site : List Char} {y : Int} {m : Nat}
    {fetch : Nat → Option Page} {fuel : Nat} {ck : Bool} {st₁ : Store}
    (h : fetch_articles st site y m fetch fuel ck = some st₁) :
    doneKey site y m ∈ st₁.done ∨
      (st₁ = st ∧ ∃ page, fetch 0 = some page ∧ page.count = 0 ∧ ¬ y < 2024) := by
  unfold fetch_articles at h
  by_cases hdk : doneKey site y m ∈ st.done
  · rw [if_pos hdk] at h
    injection h with h'
    subst h'
    exact Or.inl hdk
  · rw [if_neg hdk] at h
    cases hf : fetch 0 with
    | none => rw [hf] at h; exact absurd h (by simp)
    | some page =>
      simp only [hf] at h
      by_cases hc : page.count = 0
      · rw [if_pos hc] at h
        by_cases hy : y < 2024
        · rw [if_pos hy] at h
          injection h with h'
          subst h'
          exact Or.inl (List.mem_cons_self _ _)
        · rw [if_neg hy] at h
          injection h with h'
          subst h'
          exact Or.inr ⟨rfl, page, rfl, hc, hy⟩
      · rw [if_neg hc] at h
        cases hcl : crawlLoop fetch page.count fuel (extract page).1
            (extract page).2 [0] with
        | none => rw [hcl] at h; exact absurd h (by simp)
        | some t =>
          obtain ⟨items, imgs2, offs⟩ := t
          simp only [hcl] at h
          cases hbb : buildBatch items with
          | none => rw [hbb] at h; exact absurd h (by simp)
          | some p =>
            obtain ⟨dbs, iks⟩ := p
            simp only [hbb] at h
            cases ck with
            | true =>
              rw [if_pos rfl] at h
              injection h with h'
              subst h'
              exact Or.inl (List.mem_cons_self _ _)
            | false =>
              rw [if_neg (by simp)] at h
              exact absurd h (by simp)

/-- Preservation of the index/primary correspondence by one crawl unit:
the record and its index entry enter the same atomic batch. -/
theorem fetch_articles_storeInv {st : Store} {site : List Char} {y : Int} {m : Nat}
    {fetch : Nat → Option Page} {fuel : Nat} {ck : Bool} {st' : Store}
    (hInv : storeInv st) (h : fetch_articles st site y m fetch fuel ck = some st') :
    storeInv st' := by
  unfold fetch_articles at h
  by_cases hdk : doneKey site y m ∈ st.done
  · rw [if_pos hdk] at h
    injection h with h'
    subst h'
    exact hInv
  · rw [if_neg hdk] at h
    cases hf : fetch 0 with
    | none => rw [hf] at h; exact absurd h (by simp)
    | some page =>
      simp only [hf] at h
      by_cases hc : page.count = 0
      · rw [if_pos hc] at h
        by_cases hy : y < 2024
        · rw [if_pos hy] at h
          injection h with h'
          subst h'
          exact hInv
        · rw [if_neg hy] at h
          injection h with h'
          subst h'
          exact hInv
      · rw [if_neg hc] at h
        cases hcl : crawlLoop fetch page.count fuel (extract page).1
            (extract page).2 [0] with
        | none => rw [hcl] at h; exact absurd h (by simp)
        | some t =>
          obtain ⟨items, imgs2, offs⟩ := t
          simp only [hcl] at h
          cases hbb : buildBatch items with
          | none => rw [hbb] at h; exact absurd h (by simp)
          | some p =>
            obtain ⟨dbs, iks⟩ := p
            simp only [hbb] at h
            cases ck with
            | true =>
              rw [if_pos rfl] at h
              injection h with h'
              subst h'
              intro ik hik
              rcases (mem_foldl_cons iks st.index).mp hik with hin | hold
              · obtain ⟨pk, e, hmem, hrel⟩ := buildBatch_sound hbb ik hin
                exact ⟨pk, e, (mem_foldl_cons dbs st.db).mpr (Or.inl hmem), hrel⟩
              · obtain ⟨pk, e, hmem, hrel⟩ := hInv ik hold
                exact ⟨pk, e, (mem_foldl_cons dbs st.db).mpr (Or.inr hmem), hrel⟩
            | false =>
              rw [if_neg (by simp)] at h
              exact absurd h (by simp)

/-! ## Claim theorems -/

/-- C1, corrected: restricted to timestamps at or after the Unix epoch.
For a fixed site (same first path segment of both canonical URLs) and
epoch seconds `0 ≤ s₁ < s₂` (with `s₂` in the i64 range), the index keys
are strictly increasing in lexicographic byte order regardless of the
rest of either URL, so lexicographic key order equals chronological order
within a site. -/
theorem index_key_monotone_nonneg
    (u₁ u₂ site r₁ r₂ : List Char) (s₁ s₂ : Int) (k₁ k₂ : List Nat)
    (h₁ : split_once '/' (trimMatches '/' u₁) = some (site, r₁))
    (h₂ : split_once '/' (trimMatches '/' u₂) = some (site, r₂))
    (hs0 : 0 ≤ s₁) (hlt : s₁ < s₂) (hs2 : s₂ < 2 ^ 63)
    (hk₁ : index_key u₁ (some s₁) = some k₁)
    (hk₂ : index_key u₂ (some s₂) = some k₂) :
    List.Lex (· < ·) k₁ k₂ := by
  rw [index_key_eq_some h₁] at hk₁
  rw [index_key_eq_some h₂] at hk₂
  injection hk₁ with hk₁
  injection hk₂ with hk₂
  subst hk₁
  subst hk₂
  have h64 : (2 : Int) ^ 64 = 18446744073709551616 := by norm_num
  have h63 : (2 : Int) ^ 63 = 9223372036854775808 := by norm_num
  have h2568 : (256 : Nat) ^ 8 = 18446744073709551616 := by norm_num
  rw [h63] at hs2
  apply List.Lex.cons
  refine lex_append _ _ ?_ (by simp [beBytes_length])
  refine beBytes_lt ?_ ?_
  · unfold toTwos64
    rw [h64]
    omega
  · unfold toTwos64
    rw [h64, h2568]
    omega

/-- Witness for `index_key_monotone_nonneg`: english/a at the epoch versus
english/zzz one second later. -/
theorem index_key_monotone_nonneg_witness :
    List.Lex (· < ·) [0, 0, 0, 0, 0, 0, 0, 0, 0, 97]
      [0, 0, 0, 0, 0, 0, 0, 0, 1, 122, 122, 122] :=
  index_key_monotone_nonneg "english/a".toList "english/zzz".toList
    "english".toList "a".toList "zzz".toList 0 1 _ _
    (by decide) (by decide) (by decide) (by decide) (by norm_num)
    (by decide) (by decide)

/-- C1 counterexample: the pre-epoch timestamp 1969-12-31T23:59:59Z (epoch
second -1) and the epoch itself are both valid parseable timestamps for
the same site, but the earlier key is not lexicographically smaller: the
two's-complement big-endian bytes of a negative i64 start with 0xFF and
sort above every nonnegative value. -/
theorem index_key_monotone_counterexample :
    index_key "english/a".toList (some (-1))
        = some [0, 255, 255, 255, 255, 255, 255, 255, 255, 97] ∧
    index_key "english/a".toList (some 0)
        = some [0, 0, 0, 0, 0, 0, 0, 0, 0, 97] ∧
    (-1 : Int) < 0 ∧
    ¬ List.Lex (· < ·) [0, 255, 255, 255, 255, 255, 255, 255, 255, 97]
        [0, 0, 0, 0, 0, 0, 0, 0, 0, 97] :=
  ⟨by decide, by decide, by decide, by decide⟩

/-- C9: writer/reader key round-trip. For a canonical URL that splits as
`site/rest` after slash-trimming (rest nonempty) and any parsed display
timestamp, the index-key bytes after the fixed 9-byte prefix are exactly
the UTF-8 bytes of `rest`, and re-prepending the site segment and a '/'
(byte 47), as the site-listing reader does, reconstructs exactly the
trimmed canonical URL — the key under which the record was stored. -/
theorem index_key_roundtrip (u site rest : List Char) (ts : Int) (k : List Nat)
    (hsplit : split_once '/' (trimMatches '/' u) = some (site, rest))
    (_hne : rest ≠ [])
    (hk : index_key u (some ts) = some k) :
    k.drop 9 = utf8Bytes rest ∧
      utf8Bytes site ++ 47 :: k.drop 9 = utf8Bytes (trimMatches '/' u) := by
  rw [index_key_eq_some hsplit] at hk
  injection hk with hk
  subst hk
  constructor
  · exact drop9_key _ _ _
  · rw [drop9_key]
    rw [split_once_eq_append hsplit, utf8Bytes_append, utf8Bytes_cons]
    have h47 : utf8EncodeChar '/' = [47] := by decide
    rw [h47]
    rfl

/-- Witness for `index_key_roundtrip` on /english/a/ at the epoch. -/
theorem index_key_roundtrip_witness :
    ([0, 0, 0, 0, 0, 0, 0, 0, 0, 97] : List Nat).drop 9 = utf8Bytes "a".toList ∧
      utf8Bytes "english".toList ++ 47 :: ([0, 0, 0, 0, 0, 0, 0, 0, 0, 97] : List Nat).drop 9
        = utf8Bytes (trimMatches '/' "/english/a/".toList) :=
  index_key_roundtrip "/english/a/".toList "english".toList "a".toList 0 _
    (by decide) (by decide) (by decide)

/-- C10: `index_key` is partial exactly as claimed. It yields `none` when
the slash-trimmed URL has no '/' separator or when the display timestamp
does not parse; when the split succeeds and the timestamp parses it yields
a key of exactly 1 + 8 + (UTF-8 length of rest) bytes. -/
theorem index_key_partiality :
    (∀ (u : List Char) (ts : Option Int),
      split_once '/' (trimMatches '/' u) = none → index_key u ts = none) ∧
    (∀ u : List Char, index_key u none = none) ∧
    (∀ (u site rest : List Char) (ts : Int),
      split_once '/' (trimMatches '/' u) = some (site, rest) →
      ∃ k, index_key u (some ts) = some k ∧
        k.length = 1 + 8 + (utf8Bytes rest).length) := by
  refine ⟨?_, ?_, ?_⟩
  · intro u ts h
    unfold index_key
    rw [h]
  · intro u
    unfold index_key
    cases h : split_once '/' (trimMatches '/' u) with
    | none => rfl
    | some sr =>
      obtain ⟨a, b⟩ := sr
      rfl
  · intro u site rest ts h
    refine ⟨_, index_key_eq_some h, ?_⟩
    simp only [List.length_cons, List.length_append, beBytes_length]

/-- Witness for `index_key_partiality`: a URL with no separator, a missing
timestamp, and a fully valid pair. -/
theorem index_key_partiality_witness :
    index_key "english".toList (some 0) = none ∧
    index_key "english/a".toList none = none ∧
    ∃ k, index_key "english/a".toList (some 0) = some k ∧
      k.length = 1 + 8 + (utf8Bytes "a".toList).length :=
  ⟨index_key_partiality.1 _ _ (by decide), index_key_partiality.2.1 _,
    index_key_partiality.2.2 _ "english".toList "a".toList 0 (by decide)⟩

/-- C2: the index-to-primary invariant. The empty store satisfies it, and
every successful `fetch_articles` run preserves it: each record and its
index entry enter the same all-or-nothing batch, so after any successful
run every secondary-index key has a primary-partition key with the
matching canonical path (site segment joined with the suffix stored after
the index key's fixed 9-byte prefix). -/
theorem ingest_index_invariant :
    storeInv { db := [], index := [], done := [] } ∧
    ∀ (st : Store) (site : List Char) (y : Int) (m : Nat)
      (fetch : Nat → Option Page) (fuel : Nat) (ck : Bool) (st' : Store),
      storeInv st → fetch_articles st site y m fetch fuel ck = some st' →
      storeInv st' := by
  constructor
  · intro ik hik
    simp at hik
  · intro st site y m fetch fuel ck st' hI h
    exact fetch_articles_storeInv hI h

/-- Witness for `ingest_index_invariant`: the store produced by one
committed single-article run from the empty store. -/
theorem ingest_index_invariant_witness :
    storeInv { db := [([101, 110, 103, 108, 105, 115, 104, 47, 97], elemA)],
               index := [[0, 0, 0, 0, 0, 0, 0, 0, 0, 97]],
               done := [doneKey "english".toList 2000 1] } :=
  ingest_index_invariant.2 emptyStore "english".toList 2000 1 oneFetch 1 true _
    ingest_index_invariant.1 rfl

/-- C3, corrected: the source guards the zero-count marker with the
hardcoded literal `year < 2024`, not with the current calendar year. When
the reported count is 0 the run writes the completion marker exactly when
`year < 2024`, writes nothing else to the store, and returns success. -/
theorem zero_count_marker_policy (st : Store) (site : List Char) (y : Int) (m : Nat)
    (fetch : Nat → Option Page) (fuel : Nat) (ck : Bool) (page : Page)
    (hdk : doneKey site y m ∉ st.done) (hf : fetch 0 = some page)
    (hc : page.count = 0) :
    fetch_articles st site y m fetch fuel ck
      = some (if y < 2024 then { st with done := doneKey site y m :: st.done }
              else st) := by
  unfold fetch_articles
  rw [if_neg hdk]
  simp only [hf]
  rw [if_pos hc]
  by_cases hy : y < 2024
  · rw [if_pos hy, if_pos hy]
  · rw [if_neg hy, if_neg hy]

/-- Witness for `zero_count_marker_policy` at year 2000. -/
theorem zero_count_marker_policy_witness :
    fetch_articles emptyStore "english".toList 2000 1 zeroFetch 0 true
      = some (if (2000 : Int) < 2024 then
                { emptyStore with
                    done := doneKey "english".toList 2000 1 :: emptyStore.done }
              else emptyStore) :=
  zero_count_marker_policy _ _ _ _ _ _ _ _ (by simp [emptyStore]) rfl rfl

/-- C3 counterexample: a zero-count month of year 2024, which is strictly
before the current calendar year (2026 today; already 2025 by the crawl
range's own end date 2025-09), gets no completion marker, because the
code's guard is the hardcoded literal `year < 2024` rather than a
comparison with the current year. -/
theorem zero_count_current_year_counterexample :
    fetch_articles emptyStore "english".toList 2024 5 zeroFetch 0 true
      = some emptyStore ∧
    doneKey "english".toList 2024 5 ∉ emptyStore.done ∧
    (2024 : Int) < 2026 :=
  ⟨rfl, by simp [emptyStore], by norm_num⟩

/-- C4: pagination exhaustion. Against the fake source reporting
`count = 250` over pages of 100, the crawl loop seeded with the initial
offset-0 fetch issues exactly the fetches at offsets 0, 100 and 200
(each subsequent offset being the number of records accumulated so far)
and accumulates exactly 250 records; and in general the loop only returns
successfully once the accumulated record count has reached the reported
count. -/
theorem pagination_exhaustion :
    (fetch250 0 = some { count := 250, elements := List.replicate 100 dummyElem } ∧
      crawlLoop fetch250 250 10 (List.replicate 100 dummyElem) [] [0]
        = some (List.replicate 250 dummyElem, [], [0, 100, 200])) ∧
    ∀ (fetch : Nat → Option Page) (count fuel : Nat) (items : List Element)
      (imgs : List (List Char)) (offs : List Nat)
      (res : List Element × List (List Char) × List Nat),
      crawlLoop fetch count fuel items imgs offs = some res →
      count ≤ res.1.length := by
  refine ⟨⟨rfl, by decide⟩, ?_⟩
  intro fetch count fuel items imgs offs res h
  exact crawlLoop_count_le h

/-- Witness for `pagination_exhaustion` on the concrete 250-record run. -/
theorem pagination_exhaustion_witness :
    (250 : Nat)
      ≤ ((List.replicate 250 dummyElem, ([] : List (List Char)),
          ([0, 100, 200] : List Nat)) :
            List Element × List (List Char) × List Nat).1.length :=
  pagination_exhaustion.2 fetch250 250 10 (List.replicate 100 dummyElem) [] [0]
    _ (by decide)

/-- C5: idempotence. If the unit's completion marker already exists,
`fetch_articles` returns the store unchanged without consulting the
source; consequently, re-running any successful unit against unchanged
source data returns its result state unchanged, so running twice equals
running once. -/
theorem ingest_idempotent :
    (∀ (st : Store) (site : List Char) (y : Int) (m : Nat)
       (fetch : Nat → Option Page) (fuel : Nat) (ck : Bool),
       doneKey site y m ∈ st.done →
       fetch_articles st site y m fetch fuel ck = some st) ∧
    (∀ (st : Store) (site : List Char) (y : Int) (m : Nat)
       (fetch : Nat → Option Page) (fuel : Nat) (ck : Bool)
       (fuel' : Nat) (ck' : Bool) (st₁ : Store),
       fetch_articles st site y m fetch fuel ck = some st₁ →
       fetch_articles st₁ site y m fetch fuel' ck' = some st₁) := by
  constructor
  · intro st site y m fetch fuel ck h
    unfold fetch_articles
    rw [if_pos h]
  · intro st site y m fetch fuel ck fuel' ck' st₁ h
    rcases fetch_articles_shape h with hdone | ⟨heq, page, hf, hc, hy⟩
    · unfold fetch_articles
      rw [if_pos hdone]
    · rw [heq]
      by_cases hdk : doneKey site y m ∈ st.done
      · unfold fetch_articles
        rw [if_pos hdk]
      · unfold fetch_articles
        rw [if_neg hdk]
        simp only [hf]
        rw [if_pos hc, if_neg hy]

/-- Witness for `ingest_idempotent`: with the marker already present the
run is a no-op success, whatever the source would answer. -/
theorem ingest_idempotent_witness :
    fetch_articles doneStore "english".toList 2000 1 zeroFetch 0 true
      = some doneStore :=
  ingest_idempotent.1 _ _ _ _ _ _ _ (by simp [doneStore])

/-- C6: a failed batch commit is never followed by a marker write. If the
unit reaches the batch stage (marker absent, first fetch delivered a page
with nonzero count) and the commit fails, the run aborts with no resulting
state at all — in the source, `batch.commit().unwrap()` panics before the
marker insert on line 208, and the all-or-nothing batch leaves the store
untouched. -/
theorem commit_failure_no_marker (st : Store) (site : List Char) (y : Int) (m : Nat)
    (fetch : Nat → Option Page) (fuel : Nat) (page : Page)
    (hdk : doneKey site y m ∉ st.done) (hf : fetch 0 = some page)
    (hc : page.count ≠ 0) :
    fetch_articles st site y m fetch fuel false = none := by
  unfold fetch_articles
  rw [if_neg hdk]
  simp only [hf]
  rw [if_neg hc]
  cases hcl : crawlLoop fetch page.count fuel (extract page).1
      (extract page).2 [0] with
  | none => rfl
  | some t =>
    obtain ⟨items, imgs2, offs⟩ := t
    simp only [hcl]
    cases hbb : buildBatch items with
    | none => rfl
    | some p =>
      obtain ⟨dbs, iks⟩ := p
      simp only [hbb]
      rw [if_neg (by simp)]

/-- Witness for `commit_failure_no_marker` on a one-article unit. -/
theorem commit_failure_no_marker_witness :
    fetch_articles emptyStore "english".toList 2000 1 oneFetch 1 false = none :=
  commit_failure_no_marker _ _ _ _ _ _ _ (by simp [emptyStore]) rfl (by decide)

/-- C7: the site-listing read path. Over 45 index entries for the english
site, page 0 returns the 20 most recent records (newest first), page 2
returns the remaining 5, and page 3 returns an empty sequence; and with
the newest entry's primary record missing, that index entry is skipped
rather than failing the request. -/
theorem site_listing_windowing :
    site_page c7Keys c7Db "english".toList 0
        = (List.range 20).map (fun j => c7Elem (44 - j)) ∧
    site_page c7Keys c7Db "english".toList 2
        = (List.range 5).map (fun j => c7Elem (4 - j)) ∧
    site_page c7Keys c7Db "english".toList 3 = [] ∧
    site_page c7Keys c7DbMissing "english".toList 0
        = (List.range 19).map (fun j => c7Elem (43 - j)) :=
  ⟨by decide, by decide, by decide, by decide⟩

/-- C8, corrected: the source splits on '/' first and only then strips
from the first '?', which agrees with "final path segment with the query
string stripped" exactly when the query string contains no '/'. Under
that restriction the two agree, and the concrete example yields c.jpg. -/
theorem filename_extraction :
    get_filename_from_url "https://x.org/a/b/c.jpg?w=10".toList = "c.jpg".toList ∧
    ∀ url : List Char, ('/' : Char) ∉ url.dropWhile (fun c => c != '?') →
      get_filename_from_url url = filename_from_url_spec url :=
  ⟨by decide, fun _ h => filename_agree h⟩

/-- Witness for `filename_extraction` on imgs/photo.png?h=2. -/
theorem filename_extraction_witness :
    get_filename_from_url "imgs/photo.png?h=2".toList
      = filename_from_url_spec "imgs/photo.png?h=2".toList :=
  filename_extraction.2 _ (by decide)

/-- C8 counterexample: for a URL whose query string contains '/', the code
does not return the final path segment with the query stripped: on
https://x.org/a?b/c the final path segment is "a" (the query is "b/c"),
but the code returns "c". -/
theorem filename_extraction_counterexample :
    get_filename_from_url "https://x.org/a?b/c".toList = "c".toList ∧
    filename_from_url_spec "https://x.org/a?b/c".toList = "a".toList ∧
    "c".toList ≠ "a".toList :=
  ⟨by decide, by decide, by decide⟩

